import Mathlib

/-!
Shallow embedding of the Turing-machine simulator in `src/main.rs`
(EderNunez/turing-machine).

The source is a single Rust file.  Its pure logic is embedded here:

* `Step` and `Step.tryFrom` embed `enum Step` and `impl TryFrom<&str> for Step`;
* `Turd` and `Turd.parse_turd` embed `struct Turd` and `Turd::parse_turd`;
* `Turd.states_of_turds` embeds `Turd::states_of_turds` (a `BTreeSet`
  collection, i.e. a sorted deduplicated list);
* `Machine` and `Machine.next` embed `struct Machine` and `Machine::next`;
* `load_turds` embeds the rule-loading pipeline of `main`
  (`content.lines().map(str::trim).enumerate().filter_map(..).collect::<Result<_,_>>()`).

Strings are Lean `String`s; the Rust string helpers `str::lines`,
`str::trim` and `str::split_whitespace` are embedded as executable
functions over `String.data` (`linesOf`, `trimStr`, `tokensOf`), using
`Char.isWhitespace` for Rust `char::is_whitespace` (they agree on the
ASCII whitespace appearing in rule/tape files).  `str::lines` is modelled
as splitting on the newline character; the only difference with Rust
(a trailing empty fragment when the text ends in a newline, and a
carriage return left at the end of a line) is erased by the `trim` /
blank-line filtering this pipeline always applies right after.

Machine indexing `self.tape[self.head]` panics in Rust when the head is
out of bounds; `Machine.next` returns `none` exactly there, and
`some (m, b)` where the Rust method returns `b` leaving the machine `m`.
File input/output, the CLI argument handling and the `Display`
rendering are out of scope, so of the error enum only the `Parse` and
`Transformation` constructors (the ones produced by the embedded code)
are kept.
-/

namespace TuringSim

/-- Errors produced by the embedded parsing code, from `enum TuringMachineError`
(the `Args` and `Io` constructors belong to the out-of-scope CLI wrapper). -/
inductive TuringMachineError where
  | Parse (msg : String)
  | Transformation (msg : String)
deriving DecidableEq, Repr

/-- Head move direction, from `enum Step { L, R }`. -/
inductive Step where
  | L
  | R
deriving DecidableEq, Repr

/-- The ASCII apostrophe character, used by the Rust error message
`"{value} is not a valid step. Expected 'L' or 'R'"`. -/
def quoteMark : String := String.singleton (Char.ofNat 39)

/-- The suffix of the invalid-move-token error message: it names the two
accepted values `L` and `R`; the full message is the offending token
followed by this suffix. -/
def stepErrSuffix : String :=
  " is not a valid step. Expected " ++ quoteMark ++ "L" ++ quoteMark ++
    " or " ++ quoteMark ++ "R" ++ quoteMark

/-- Embeds `impl TryFrom<&str> for Step`: `"L"` and `"R"` convert, any
other token is a `Transformation` error naming the token. -/
def Step.tryFrom (value : String) : Except TuringMachineError Step :=
  if value = "L" then .ok .L
  else if value = "R" then .ok .R
  else .error (.Transformation (value ++ stepErrSuffix))

/-- One transition rule, from `struct Turd`. -/
structure Turd where
  current : String
  read : String
  write : String
  step : Step
  next : String
deriving DecidableEq, Repr

/-- Embeds Rust `str::trim` on the character list: drop whitespace from
both ends. -/
def trimChars (l : List Char) : List Char :=
  ((l.dropWhile Char.isWhitespace).reverse.dropWhile Char.isWhitespace).reverse

/-- Embeds Rust `str::trim`. -/
def trimStr (s : String) : String := String.mk (trimChars s.data)

/-- Embeds Rust `str::lines`: split the text on the newline character. -/
def linesOf (s : String) : List String :=
  (s.data.splitOnP (fun c => c = '\n')).map String.mk

/-- Embeds `s.split_whitespace().map(str::trim)` from `Turd::parse_turd`:
split on whitespace, keep only non-empty fragments, trim each (a no-op on
whitespace-free fragments, kept for faithfulness to the source). -/
def tokensOf (s : String) : List String :=
  (((s.data.splitOnP Char.isWhitespace).filter (fun t => t ≠ [])).map trimChars).map String.mk

/-- The token-count parse error message
`"{filepath}:{line}: A single turd is expected to have 5 tokens"`. -/
def turdTokensMsg (filepath : String) (lineNo : Nat) : String :=
  filepath ++ ":" ++ toString lineNo ++ ": A single turd is expected to have 5 tokens"

/-- Embeds `Turd::parse_turd`: split the line into whitespace-separated
tokens; fail with a `Parse` error (reporting `index + 1` as line number)
unless there are exactly 5; convert token 3 into a `Step`, propagating
its `Transformation` error; otherwise build the rule from the tokens in
order current, read, write, step, next. -/
def Turd.parse_turd (filepath : String) (s : Nat × String) :
    Except TuringMachineError Turd :=
  let tokens := tokensOf s.2
  if tokens.length ≠ 5 then
    .error (.Parse (turdTokensMsg filepath (s.1 + 1)))
  else
    match Step.tryFrom (tokens.getD 3 "") with
    | .error e => .error e
    | .ok st =>
        .ok ⟨tokens.getD 0 "", tokens.getD 1 "", tokens.getD 2 "", st, tokens.getD 4 ""⟩

/-- Embeds `Turd::states_of_turds`: collect every rule's `current` and
`next` state into a `BTreeSet` and list it in order, i.e. the sorted
deduplicated list of those names. -/
def Turd.states_of_turds (turds : List Turd) : List String :=
  ((turds.flatMap (fun t => [t.current, t.next])).dedup).insertionSort (· ≤ ·)

/-- The rule-loading pipeline of `main`: the file's lines are trimmed and
enumerated (so indices count every physical line, blank ones included),
then blank lines are dropped. -/
def nonBlankEnum (content : String) : List (Nat × String) :=
  (((linesOf content).map trimStr).enum).filter (fun x => x.2 ≠ "")

/-- Embeds the `collect::<Result<Vec<_>, _>>()` rule loading of `main`:
parse every non-blank (trimmed, enumerated) line in file order,
short-circuiting on the first error. -/
def load_turds (filepath content : String) : Except TuringMachineError (List Turd) :=
  (nonBlankEnum content).mapM (Turd.parse_turd filepath)

/-- Runtime state, from `struct Machine`. -/
structure Machine where
  tape : List String
  head : Nat
  state : String
deriving DecidableEq, Repr

/-- The head update of `Machine::next`: `L` at index 0 wraps to
`len - 1`, `L` elsewhere decrements, `R` is `(head + 1) % len`. -/
def moveHead (st : Step) (head len : Nat) : Nat :=
  match st with
  | .L => if head = 0 then len - 1 else head - 1
  | .R => (head + 1) % len

/-- The effect of applying rule `t` in `Machine::next`: write `t.write`
at the head, move the head, enter `t.next`. -/
def applyTurd (m : Machine) (t : Turd) : Machine :=
  { tape := m.tape.set m.head t.write
    head := moveHead t.step m.head m.tape.length
    state := t.next }

/-- The rule-matching test of `Machine::next`:
`turd.current == self.state && turd.read == <symbol under the head>`. -/
def turdMatches (st sym : String) (t : Turd) : Bool :=
  t.current == st && t.read == sym

/-- Embeds `Machine::next`: scan the program in order; on the first rule
whose `current` is the machine state (tested first, as Rust `&&`
short-circuits) and whose `read` is the symbol under the head, apply it
and return `true`; if the scan reaches a rule whose `current` matches
while the head is out of bounds, the Rust indexing panics (`none`); if
no rule matches, return `false` leaving the machine unchanged. -/
def Machine.next (m : Machine) : List Turd → Option (Machine × Bool)
  | [] => some (m, false)
  | t :: rest =>
      if t.current = m.state then
        match m.tape[m.head]? with
        | none => none
        | some sym =>
            if t.read = sym then some (applyTurd m t, true)
            else m.next rest
      else m.next rest

/-- A parseable rule line: exactly 5 whitespace-separated tokens, the
fourth being a valid move token. -/
def validLine (line : String) : Prop :=
  (tokensOf line).length = 5 ∧
    ((tokensOf line).getD 3 "" = "L" ∨ (tokensOf line).getD 3 "" = "R")

instance (line : String) : Decidable (validLine line) := by
  unfold validLine; infer_instance

/-! ## Helper lemmas -/

/-- With the head in bounds, the indexed cell is the `getD` default read. -/
lemma getElem?_head_eq (m : Machine) (hh : m.head < m.tape.length) :
    m.tape[m.head]? = some (m.tape.getD m.head "") := by
  rw [List.getD_eq_getElem?_getD, List.getElem?_eq_getElem hh]
  rfl

/-- With the head in bounds, `Machine.next` is the first-match
characterisation: apply the first matching rule, else report a halt. -/
lemma next_eq_find (m : Machine) (program : List Turd) (hh : m.head < m.tape.length) :
    m.next program =
      match program.find? (turdMatches m.state (m.tape.getD m.head "")) with
      | some t => some (applyTurd m t, true)
      | none => some (m, false) := by
  induction program with
  | nil => simp [Machine.next]
  | cons t rest ih =>
      by_cases hc : t.current = m.state
      · simp only [Machine.next, if_pos hc, getElem?_head_eq m hh]
        by_cases hr : t.read = m.tape.getD m.head ""
        · rw [if_pos hr, List.find?_cons_of_pos]
          simp [turdMatches, hc, hr]
        · rw [if_neg hr,
            List.find?_cons_of_neg _
              (by simp [turdMatches, ← List.getD_eq_getElem?_getD, hc, hr]),
            ih]
      · simp only [Machine.next, if_neg hc]
        rw [List.find?_cons_of_neg _ (by simp [turdMatches, hc]), ih]

/-- With the head out of bounds, the scan panics (`none`) exactly when it
reaches a rule whose `current` matches the machine state; otherwise it
runs off the end and reports a halt. -/
lemma next_oob (m : Machine) (program : List Turd) (hh : m.tape[m.head]? = none) :
    (m.next program = none ↔ ∃ t ∈ program, t.current = m.state) ∧
    ((∀ t ∈ program, t.current ≠ m.state) → m.next program = some (m, false)) ∧
    (∀ (m' : Machine) (b : Bool), m.next program = some (m', b) → m' = m ∧ b = false) := by
  induction program with
  | nil =>
      refine ⟨by simp [Machine.next], fun _ => rfl, fun m' b h => ?_⟩
      have h1 := Option.some.inj h
      exact ⟨(congrArg Prod.fst h1).symm, (congrArg Prod.snd h1).symm⟩
  | cons t rest ih =>
      by_cases hc : t.current = m.state
      · have hnone : m.next (t :: rest) = none := by
          simp [Machine.next, hc, hh]
        refine ⟨⟨fun _ => ⟨t, List.mem_cons_self t rest, hc⟩, fun _ => hnone⟩,
          fun hall => absurd hc (hall t (List.mem_cons_self t rest)),
          fun m' b h => absurd (hnone ▸ h) (by simp)⟩
      · have hstep : m.next (t :: rest) = m.next rest := by
          simp only [Machine.next, if_neg hc]
        rw [hstep]
        refine ⟨?_, ?_, ih.2.2⟩
        · rw [ih.1]
          constructor
          · rintro ⟨u, hu, hcu⟩
            exact ⟨u, List.mem_cons_of_mem t hu, hcu⟩
          · rintro ⟨u, hu, hcu⟩
            rcases List.mem_cons.mp hu with rfl | hu
            · exact absurd hcu hc
            · exact ⟨u, hu, hcu⟩
        · intro hall
          exact ih.2.1 (fun u hu => hall u (List.mem_cons_of_mem t hu))

/-- `mapM` over `Except` succeeds exactly on the pointwise successes, in
order. -/
lemma mapM_ok_iff {ε α β : Type} (f : α → Except ε β) :
    ∀ (l : List α) (ys : List β),
      l.mapM f = .ok ys ↔ List.Forall₂ (fun a b => f a = .ok b) l ys := by
  intro l
  induction l with
  | nil =>
      intro ys
      rw [List.mapM_nil]
      constructor
      · intro h
        cases ys with
        | nil => exact List.Forall₂.nil
        | cons y ys => exact absurd h (by intro h; cases h)
      · intro h
        rw [List.forall₂_nil_left_iff.mp h]
        rfl
  | cons a l ih =>
      intro ys
      rw [List.mapM_cons]
      cases hfa : f a with
      | error e =>
          constructor
          · intro h
            exact absurd h (by intro h; cases h)
          · intro h
            rcases List.forall₂_cons_left_iff.mp h with ⟨b, ys', hab, _, rfl⟩
            rw [hfa] at hab
            cases hab
      | ok b =>
          show (l.mapM f >>= fun bs => pure (b :: bs)) = Except.ok ys ↔ _
          cases hrest : l.mapM f with
          | error e =>
              constructor
              · intro h
                exact absurd h (by intro h; cases h)
              · intro h
                rcases List.forall₂_cons_left_iff.mp h with ⟨b', ys', _, hl, rfl⟩
                rw [(ih ys').mpr hl] at hrest
                cases hrest
          | ok bs =>
              show Except.ok (b :: bs) = Except.ok ys ↔ _
              constructor
              · rintro h
                cases h
                exact List.Forall₂.cons hfa ((ih bs).mp hrest)
              · intro h
                rcases List.forall₂_cons_left_iff.mp h with ⟨b', ys', hab, hl, rfl⟩
                rw [hfa] at hab
                cases hab
                rw [(ih ys').mpr hl] at hrest
                cases hrest
                rfl

/-- `mapM` over `Except` short-circuits: if everything before `x`
succeeds and `x` fails with `e`, the whole traversal fails with `e`. -/
lemma mapM_error_of_first {ε α β : Type} (f : α → Except ε β) (x : α) (e : ε)
    (hx : f x = .error e) :
    ∀ (pre suf : List α), (∀ y ∈ pre, ∃ b, f y = .ok b) →
      (pre ++ x :: suf).mapM f = .error e := by
  intro pre
  induction pre with
  | nil =>
      intro suf _
      rw [List.nil_append, List.mapM_cons, hx]
      rfl
  | cons a pre ih =>
      intro suf hok
      obtain ⟨b, hb⟩ := hok a (List.mem_cons_self a pre)
      rw [List.cons_append, List.mapM_cons, hb]
      show ((pre ++ x :: suf).mapM f >>= fun bs => pure (b :: bs)) = Except.error e
      rw [ih suf (fun y hy => hok y (List.mem_cons_of_mem a hy))]
      rfl

/-- A line whose token count is not 5 fails with the token-count `Parse`
error reporting `index + 1` as the line number. -/
lemma parse_turd_len_error (fp : String) (i : Nat) (line : String)
    (h : (tokensOf line).length ≠ 5) :
    Turd.parse_turd fp (i, line) = .error (.Parse (turdTokensMsg fp (i + 1))) := by
  simp only [Turd.parse_turd]
  rw [if_pos h]

/-- A line with 5 tokens and a valid move token parses. -/
lemma parse_turd_ok_of_validLine (fp : String) (i : Nat) (line : String)
    (h : validLine line) :
    ∃ t : Turd, Turd.parse_turd fp (i, line) = .ok t := by
  obtain ⟨h5, hLR⟩ := h
  have hne : ¬((tokensOf line).length ≠ 5) := by simp [h5]
  rcases hLR with hL | hR
  · refine ⟨⟨(tokensOf line).getD 0 "", (tokensOf line).getD 1 "",
      (tokensOf line).getD 2 "", .L, (tokensOf line).getD 4 ""⟩, ?_⟩
    simp only [Turd.parse_turd]
    rw [if_neg hne, hL]
    rfl
  · refine ⟨⟨(tokensOf line).getD 0 "", (tokensOf line).getD 1 "",
      (tokensOf line).getD 2 "", .R, (tokensOf line).getD 4 ""⟩, ?_⟩
    simp only [Turd.parse_turd]
    rw [if_neg hne, hR]
    rfl

/-- A line with a wrong token count or an invalid move token fails to
parse. -/
lemma parse_turd_error_of_not_validLine (fp : String) (i : Nat) (line : String)
    (h : ¬ validLine line) :
    ∃ e, Turd.parse_turd fp (i, line) = .error e := by
  by_cases h5 : (tokensOf line).length = 5
  · have hor : ¬((tokensOf line).getD 3 "" = "L" ∨ (tokensOf line).getD 3 "" = "R") :=
      fun hor => h ⟨h5, hor⟩
    push_neg at hor
    refine ⟨.Transformation ((tokensOf line).getD 3 "" ++ stepErrSuffix), ?_⟩
    simp only [Turd.parse_turd, Step.tryFrom]
    rw [if_neg (by simp [h5]), if_neg hor.1, if_neg hor.2]
  · exact ⟨_, parse_turd_len_error fp i line h5⟩

/-- Membership in the filtered enumeration recovers the line's position
in the (trimmed) physical line list. -/
lemma mem_nonBlankEnum (content : String) (i : Nat) (line : String)
    (h : (i, line) ∈ nonBlankEnum content) :
    ((linesOf content).map trimStr)[i]? = some line ∧ line ≠ "" := by
  unfold nonBlankEnum at h
  rw [List.mem_filter] at h
  obtain ⟨hmem, hne⟩ := h
  obtain ⟨hlt, hval⟩ := List.mem_enum hmem
  refine ⟨?_, by simpa using hne⟩
  rw [List.getElem?_eq_getElem hlt, hval]

/-- From pointwise successes of an `Except`-valued function, build the
pointwise-related output list. -/
lemma forall₂_of_forall_ok {ε α β : Type} (f : α → Except ε β) :
    ∀ l : List α, (∀ x ∈ l, ∃ y, f x = .ok y) →
      ∃ ys, List.Forall₂ (fun a b => f a = .ok b) l ys := by
  intro l
  induction l with
  | nil => exact fun _ => ⟨[], List.Forall₂.nil⟩
  | cons a l ih =>
      intro h
      obtain ⟨b, hb⟩ := h a (List.mem_cons_self a l)
      obtain ⟨ys, hys⟩ := ih (fun x hx => h x (List.mem_cons_of_mem a hx))
      exact ⟨b :: ys, List.Forall₂.cons hb hys⟩

/-! ## Claim theorems -/

/-- Claim C1: with the head in bounds, `Machine.next` applies exactly the
first rule of the program (in table order, as `List.find?` selects it)
whose `current` equals the machine state and whose `read` equals the
symbol under the head: it writes that rule's `write` symbol into the cell
at the head, moves the head according to the rule's move, enters the
rule's `next` state and returns `true`; conversely, every step returning
`true` is of that shape, so of two rules matching the same (state,
symbol) pair the earlier one is always the one applied. -/
theorem next_applies_first_match (m : Machine) (program : List Turd)
    (hh : m.head < m.tape.length) :
    (∀ t : Turd,
      program.find? (turdMatches m.state (m.tape.getD m.head "")) = some t →
        m.next program =
          some ({ tape := m.tape.set m.head t.write,
                  head := moveHead t.step m.head m.tape.length,
                  state := t.next }, true)) ∧
    (∀ m' : Machine, m.next program = some (m', true) →
      ∃ t : Turd,
        program.find? (turdMatches m.state (m.tape.getD m.head "")) = some t ∧
          m' = { tape := m.tape.set m.head t.write,
                 head := moveHead t.step m.head m.tape.length,
                 state := t.next }) := by
  constructor
  · intro t hf
    rw [next_eq_find m program hh, hf]
    rfl
  · intro m' hn
    rw [next_eq_find m program hh] at hn
    cases hf : program.find? (turdMatches m.state (m.tape.getD m.head "")) with
    | none =>
        rw [hf] at hn
        simp at hn
    | some t =>
        rw [hf] at hn
        simp only [Option.some.injEq, Prod.mk.injEq] at hn
        exact ⟨t, rfl, hn.1.symm⟩

/-- Witness for C1: on tape `0 0 0` in state `A`, with two rules both
matching `(A, 0)`, the first one (write `1`, move right, go to `B`) is
the one applied. -/
theorem next_applies_first_match_witness :
    Machine.next ⟨["0", "0", "0"], 0, "A"⟩
        [⟨"A", "0", "1", Step.R, "B"⟩, ⟨"A", "0", "9", Step.L, "C"⟩] =
      some (⟨["1", "0", "0"], 1, "B"⟩, true) :=
  (next_applies_first_match ⟨["0", "0", "0"], 0, "A"⟩
      [⟨"A", "0", "1", Step.R, "B"⟩, ⟨"A", "0", "9", Step.L, "C"⟩] (by decide)).1
    ⟨"A", "0", "1", Step.R, "B"⟩ (by decide)

/-- Claim C2: when a step applies a rule (the first match `t`), the new
head is: `L` from index 0 wraps to `length - 1`; `R` from the last index
wraps to 0; strictly inside the tape, `L` decrements and `R` increments
the head. -/
theorem next_head_wraparound (m : Machine) (program : List Turd) (t : Turd)
    (m' : Machine) (hh : m.head < m.tape.length)
    (hf : program.find? (turdMatches m.state (m.tape.getD m.head "")) = some t)
    (hn : m.next program = some (m', true)) :
    (t.step = Step.L → m.head = 0 → m'.head = m.tape.length - 1) ∧
    (t.step = Step.R → m.head = m.tape.length - 1 → m'.head = 0) ∧
    (0 < m.head → m.head < m.tape.length - 1 →
      (t.step = Step.L → m'.head = m.head - 1) ∧
      (t.step = Step.R → m'.head = m.head + 1)) := by
  rw [next_eq_find m program hh, hf] at hn
  simp only [Option.some.injEq, Prod.mk.injEq] at hn
  have hm' : m' = applyTurd m t := hn.1.symm
  subst hm'
  refine ⟨?_, ?_, ?_⟩
  · intro hL h0
    simp [applyTurd, moveHead, hL, h0]
  · intro hR hlast
    have hpos : 0 < m.tape.length := by omega
    simp only [applyTurd, moveHead, hR]
    rw [hlast, Nat.sub_add_cancel hpos, Nat.mod_self]
  · intro h0 hlt
    constructor
    · intro hL
      simp only [applyTurd, moveHead, hL]
      rw [if_neg (by omega)]
    · intro hR
      simp only [applyTurd, moveHead, hR]
      exact Nat.mod_eq_of_lt (by omega)

/-- Witness for C2: on tape `0 1 0` (length 3) with the head at the last
index, applying a rule moving right wraps the head to 0. -/
theorem next_head_wraparound_witness :
    Machine.next ⟨["0", "1", "0"], 2, "A"⟩ [⟨"A", "0", "1", Step.R, "B"⟩] =
      some (⟨["0", "1", "1"], 0, "B"⟩, true) ∧
    (⟨["0", "1", "1"], 0, "B"⟩ : Machine).head = 0 :=
  ⟨by decide,
   (next_head_wraparound ⟨["0", "1", "0"], 2, "A"⟩ [⟨"A", "0", "1", Step.R, "B"⟩]
      ⟨"A", "0", "1", Step.R, "B"⟩ ⟨["0", "1", "1"], 0, "B"⟩
      (by decide) (by decide) (by decide)).2.1 rfl (by decide)⟩

/-- Claim C3: with the head in bounds, `Machine.next` returns `false`
with the machine (tape, head and state) unchanged exactly when no rule's
(current, read) pair equals the machine's (state, symbol under the head);
any `false` return leaves the machine unchanged; in particular, when the
machine's state occurs as no rule's `current` (e.g. an unrecognized
initial state), the very first step halts with everything unchanged. -/
theorem next_halts_iff_no_match (m : Machine) (program : List Turd)
    (hh : m.head < m.tape.length) :
    ((m.next program = some (m, false)) ↔
      ∀ t ∈ program, ¬(t.current = m.state ∧ t.read = m.tape.getD m.head "")) ∧
    (∀ m' : Machine, m.next program = some (m', false) → m' = m) ∧
    ((∀ t ∈ program, t.current ≠ m.state) → m.next program = some (m, false)) := by
  have hmatch : ∀ t : Turd,
      turdMatches m.state (m.tape.getD m.head "") t = true ↔
        (t.current = m.state ∧ t.read = m.tape.getD m.head "") := by
    intro t
    simp [turdMatches]
  have key := next_eq_find m program hh
  refine ⟨?_, ?_, ?_⟩
  · rw [key]
    cases hf : program.find? (turdMatches m.state (m.tape.getD m.head "")) with
    | none =>
        simp only [iff_true_intro rfl, true_iff]
        intro t ht
        rw [← hmatch t]
        exact fun hc => (List.find?_eq_none.mp hf t ht) hc
    | some t =>
        constructor
        · intro h
          simp at h
        · intro hall
          exact absurd ((hmatch t).mp (List.find?_some hf))
            (hall t (List.mem_of_find?_eq_some hf))
  · intro m'
    rw [key]
    cases hf : program.find? (turdMatches m.state (m.tape.getD m.head "")) with
    | none =>
        intro h
        exact (congrArg Prod.fst (Option.some.inj h)).symm
    | some t =>
        intro h
        simp at h
  · intro hall
    rw [key]
    have hf : program.find? (turdMatches m.state (m.tape.getD m.head "")) = none :=
      List.find?_eq_none.mpr
        (fun t ht hc => hall t ht ((hmatch t).mp hc).1)
    rw [hf]

/-- Witness for C3: state `Z` matches no rule's `current`, so the very
first step returns `false` and leaves the machine unchanged. -/
theorem next_halts_iff_no_match_witness :
    Machine.next ⟨["0"], 0, "Z"⟩ [⟨"A", "0", "1", Step.R, "B"⟩] =
      some (⟨["0"], 0, "Z"⟩, false) :=
  (next_halts_iff_no_match ⟨["0"], 0, "Z"⟩ [⟨"A", "0", "1", Step.R, "B"⟩]
      (by decide)).2.2 (by decide)

/-- Claim C9: a step (whatever it returns) never changes the tape length,
and if the head was in bounds before the step, it is in bounds after. -/
theorem next_preserves_length_and_head_bounds (m : Machine) (program : List Turd)
    (m' : Machine) (b : Bool) (h : m.next program = some (m', b)) :
    m'.tape.length = m.tape.length ∧
    (m.head < m.tape.length → m'.head < m'.tape.length) := by
  by_cases hh : m.head < m.tape.length
  · rw [next_eq_find m program hh] at h
    cases hf : program.find? (turdMatches m.state (m.tape.getD m.head "")) with
    | none =>
        rw [hf] at h
        simp only [Option.some.injEq, Prod.mk.injEq] at h
        rw [← h.1]
        exact ⟨rfl, fun hb => hb⟩
    | some t =>
        rw [hf] at h
        simp only [Option.some.injEq, Prod.mk.injEq] at h
        rw [← h.1]
        refine ⟨by simp [applyTurd], fun _ => ?_⟩
        simp only [applyTurd, List.length_set]
        cases hs : t.step
        · simp only [moveHead]
          split
          · omega
          · omega
        · exact Nat.mod_lt _ (by omega)
  · have hget : m.tape[m.head]? = none := List.getElem?_eq_none (by omega)
    obtain ⟨rfl, -⟩ := (next_oob m program hget).2.2 m' b h
    exact ⟨rfl, fun hb => absurd hb hh⟩

/-- Witness for C9: a concrete step keeps the length at 3 and the head in
bounds. -/
theorem next_preserves_length_and_head_bounds_witness :
    (⟨["1", "0", "0"], 1, "B"⟩ : Machine).tape.length =
        (⟨["0", "0", "0"], 0, "A"⟩ : Machine).tape.length ∧
    ((⟨["0", "0", "0"], 0, "A"⟩ : Machine).head <
        (⟨["0", "0", "0"], 0, "A"⟩ : Machine).tape.length →
      (⟨["1", "0", "0"], 1, "B"⟩ : Machine).head <
        (⟨["1", "0", "0"], 1, "B"⟩ : Machine).tape.length) :=
  next_preserves_length_and_head_bounds ⟨["0", "0", "0"], 0, "A"⟩
    [⟨"A", "0", "1", Step.R, "B"⟩] ⟨["1", "0", "0"], 1, "B"⟩ true (by decide)

/-- Claim C10: a step returning `true` writes the matched (first-match)
rule's `write` symbol into the cell at the pre-step head, and leaves every
other cell unchanged. -/
theorem next_true_writes_only_head (m : Machine) (program : List Turd)
    (m' : Machine) (hh : m.head < m.tape.length)
    (hn : m.next program = some (m', true)) :
    (∀ i : Nat, i ≠ m.head → m'.tape[i]? = m.tape[i]?) ∧
    (∃ t : Turd,
      program.find? (turdMatches m.state (m.tape.getD m.head "")) = some t ∧
        m'.tape = m.tape.set m.head t.write ∧
        m'.tape[m.head]? = some t.write) := by
  rw [next_eq_find m program hh] at hn
  cases hf : program.find? (turdMatches m.state (m.tape.getD m.head "")) with
  | none =>
      rw [hf] at hn
      simp at hn
  | some t =>
      rw [hf] at hn
      simp only [Option.some.injEq, Prod.mk.injEq] at hn
      have hm' : m' = applyTurd m t := hn.1.symm
      subst hm'
      refine ⟨?_, t, rfl, rfl, ?_⟩
      · intro i hi
        simp only [applyTurd]
        exact List.getElem?_set_ne (fun he => hi he.symm)
      · simp only [applyTurd]
        exact List.getElem?_set_self hh

/-- Witness for C10: a concrete `true` step rewrites only cell 0. -/
theorem next_true_writes_only_head_witness :
    ((⟨["1", "0", "0"], 1, "B"⟩ : Machine).tape[1]? =
        (⟨["0", "0", "0"], 0, "A"⟩ : Machine).tape[1]?) ∧
    (∃ t : Turd,
      [Turd.mk "A" "0" "1" Step.R "B"].find? (turdMatches "A" "0") = some t ∧
        (⟨["1", "0", "0"], 1, "B"⟩ : Machine).tape = ["0", "0", "0"].set 0 t.write ∧
        (⟨["1", "0", "0"], 1, "B"⟩ : Machine).tape[0]? = some t.write) := by
  have h := next_true_writes_only_head ⟨["0", "0", "0"], 0, "A"⟩
    [⟨"A", "0", "1", Step.R, "B"⟩] ⟨["1", "0", "0"], 1, "B"⟩ (by decide) (by decide)
  exact ⟨h.1 1 (by decide), h.2⟩

/-- Claim C4: if every non-blank line of the program text has exactly 5
whitespace-separated tokens with a move token in {L, R}, loading returns
exactly one rule per non-blank line, pointwise in file order (blank lines
are excluded by `nonBlankEnum`); and if some non-blank line is invalid
while everything before it is valid, loading returns that first invalid
line's error and no rule sequence. -/
theorem load_turds_spec (fp content : String) :
    ((∀ x ∈ nonBlankEnum content, validLine x.2) →
      ∃ ts : List Turd, load_turds fp content = .ok ts ∧
        List.Forall₂ (fun x t => Turd.parse_turd fp x = .ok t) (nonBlankEnum content) ts ∧
        ts.length = (nonBlankEnum content).length) ∧
    (∀ (pre : List (Nat × String)) (x : Nat × String) (suf : List (Nat × String)),
      nonBlankEnum content = pre ++ x :: suf →
      (∀ y ∈ pre, validLine y.2) → ¬ validLine x.2 →
      ∃ e, Turd.parse_turd fp x = .error e ∧ load_turds fp content = .error e) := by
  constructor
  · intro hall
    obtain ⟨ts, hts⟩ := forall₂_of_forall_ok (Turd.parse_turd fp) (nonBlankEnum content)
      (fun x hx => parse_turd_ok_of_validLine fp x.1 x.2 (hall x hx))
    exact ⟨ts, (mapM_ok_iff (Turd.parse_turd fp) (nonBlankEnum content) ts).mpr hts,
      hts, hts.length_eq.symm⟩
  · intro pre x suf hsplit hpre hx
    obtain ⟨e, he⟩ := parse_turd_error_of_not_validLine fp x.1 x.2 hx
    refine ⟨e, he, ?_⟩
    unfold load_turds
    rw [hsplit]
    exact mapM_error_of_first (Turd.parse_turd fp) x e he pre suf
      (fun y hy => parse_turd_ok_of_validLine fp y.1 y.2 (hpre y hy))

/-- Witness for C4: a two-rule program with a blank line loads both
rules; replacing the second rule by a two-token line makes loading fail
with that line's error. -/
theorem load_turds_spec_witness :
    (∃ ts : List Turd, load_turds "input.turd" "A 0 1 R B\n\nB 1 0 L A" = .ok ts ∧
      List.Forall₂ (fun x t => Turd.parse_turd "input.turd" x = .ok t)
        (nonBlankEnum "A 0 1 R B\n\nB 1 0 L A") ts ∧
      ts.length = (nonBlankEnum "A 0 1 R B\n\nB 1 0 L A").length) ∧
    (∃ e, Turd.parse_turd "input.turd" (2, "x y") = .error e ∧
      load_turds "input.turd" "A 0 1 R B\n\nx y" = .error e) :=
  ⟨(load_turds_spec "input.turd" "A 0 1 R B\n\nB 1 0 L A").1 (by decide),
   (load_turds_spec "input.turd" "A 0 1 R B\n\nx y").2
     [(0, "A 0 1 R B")] (2, "x y") [] (by decide) (by decide) (by decide)⟩

/-- Claim C5 counterexample: in the program text `"a 0 1 R b\n\nx y"`,
the invalid line `x y` is the 2nd non-blank line (so the claimed
post-blank-filtering numbering would report 2), but loading reports line
3 — its physical 1-based position in the file, counting the blank line. -/
theorem parse_line_number_counterexample :
    load_turds "input.turd" "a 0 1 R b\n\nx y" =
      .error (.Parse (turdTokensMsg "input.turd" 3)) ∧
    nonBlankEnum "a 0 1 R b\n\nx y" = [(0, "a 0 1 R b"), (2, "x y")] ∧
    turdTokensMsg "input.turd" 3 ≠ turdTokensMsg "input.turd" 2 := by
  refine ⟨rfl, by decide, by decide⟩

/-- Claim C5 (amended): for a non-blank line whose token count is not 5,
parsing fails with a `Parse` error whose reported line number is the
line's 1-based position in the original file — blank lines are skipped
(never parsed) but still count toward the reported number. -/
theorem parse_line_number_amended (fp content : String) (i : Nat) (line : String)
    (hmem : (i, line) ∈ nonBlankEnum content)
    (hlen : (tokensOf line).length ≠ 5) :
    Turd.parse_turd fp (i, line) = .error (.Parse (turdTokensMsg fp (i + 1))) ∧
    ((linesOf content).map trimStr)[i]? = some line ∧ line ≠ "" :=
  ⟨parse_turd_len_error fp i line hlen, mem_nonBlankEnum content i line hmem⟩

/-- Witness for C5 (amended): the line `x y`, sitting at physical index 2
of `"a 0 1 R b\n\nx y"`, is reported as line 3. -/
theorem parse_line_number_amended_witness :
    Turd.parse_turd "input.turd" (2, "x y") =
      .error (.Parse (turdTokensMsg "input.turd" 3)) ∧
    ((linesOf "a 0 1 R b\n\nx y").map trimStr)[2]? = some "x y" ∧ "x y" ≠ "" :=
  parse_line_number_amended "input.turd" "a 0 1 R b\n\nx y" 2 "x y"
    (by decide) (by decide)

/-- Claim C6: `states_of_turds` lists exactly the names occurring as some
rule's `current` or `next` state, without duplicates, in sorted
(lexicographic) order. -/
theorem states_of_turds_spec (turds : List Turd) :
    (∀ s : String, s ∈ Turd.states_of_turds turds ↔
      ∃ t ∈ turds, s = t.current ∨ s = t.next) ∧
    List.Sorted (fun a b : String => a < b) (Turd.states_of_turds turds) ∧
    (Turd.states_of_turds turds).Nodup := by
  have hperm := List.perm_insertionSort (α := String) (· ≤ ·)
    ((turds.flatMap (fun t => [t.current, t.next])).dedup)
  have hnodup : (Turd.states_of_turds turds).Nodup :=
    hperm.nodup_iff.mpr (List.nodup_dedup _)
  refine ⟨?_, ?_, hnodup⟩
  · intro s
    unfold Turd.states_of_turds
    rw [hperm.mem_iff, List.mem_dedup, List.mem_flatMap]
    constructor
    · rintro ⟨t, ht, hs⟩
      refine ⟨t, ht, ?_⟩
      rcases List.mem_cons.mp hs with h | h
      · exact Or.inl h
      · exact Or.inr (by simpa using h)
    · rintro ⟨t, ht, hs | hs⟩
      · exact ⟨t, ht, by simp [hs]⟩
      · exact ⟨t, ht, by simp [hs]⟩
  · exact (List.sorted_insertionSort (· ≤ ·) _).lt_of_le hnodup

/-- Claim C7: a move token converts successfully exactly when it is `L`
or `R`; any other token yields a `Transformation` error whose message is
the offending token followed by a suffix naming the two accepted values
`L` and `R`. -/
theorem step_tryFrom_spec (value : String) :
    ((∃ s : Step, Step.tryFrom value = .ok s) ↔ (value = "L" ∨ value = "R")) ∧
    (Step.tryFrom value = .ok Step.L ↔ value = "L") ∧
    (Step.tryFrom value = .ok Step.R ↔ value = "R") ∧
    (value ≠ "L" → value ≠ "R" →
      Step.tryFrom value = .error (.Transformation (value ++ stepErrSuffix))) := by
  by_cases hL : value = "L"
  · subst hL
    refine ⟨⟨fun _ => Or.inl rfl, fun _ => ⟨Step.L, rfl⟩⟩, ?_, ?_, ?_⟩
    · simp [Step.tryFrom]
    · constructor
      · intro h
        exact absurd h (by simp [Step.tryFrom])
      · intro h
        exact absurd h (by decide)
    · intro h
      exact absurd rfl h
  · by_cases hR : value = "R"
    · subst hR
      refine ⟨⟨fun _ => Or.inr rfl, fun _ => ⟨Step.R, rfl⟩⟩, ?_, ?_, ?_⟩
      · constructor
        · intro h
          exact absurd h (by simp [Step.tryFrom])
        · intro h
          exact absurd h (by decide)
      · simp [Step.tryFrom]
      · intro _ h
        exact absurd rfl h
    · have herr : Step.tryFrom value = .error (.Transformation (value ++ stepErrSuffix)) := by
        simp only [Step.tryFrom, if_neg hL, if_neg hR]
      refine ⟨⟨?_, ?_⟩, ?_, ?_, fun _ _ => herr⟩
      · rintro ⟨s, hs⟩
        rw [herr] at hs
        cases hs
      · rintro (h | h)
        · exact absurd h hL
        · exact absurd h hR
      · rw [herr]
        exact Iff.intro (fun h => by cases h) (fun h => absurd h hL)
      · rw [herr]
        exact Iff.intro (fun h => by cases h) (fun h => absurd h hR)

/-- Witness for C7: the token `X` is rejected with the `Transformation`
message starting with `X` itself. -/
theorem step_tryFrom_spec_witness :
    Step.tryFrom "X" = .error (.Transformation ("X" ++ stepErrSuffix)) :=
  (step_tryFrom_spec "X").2.2.2 (by decide) (by decide)

/-- Claim C8 (refuting the claimed explicit failure): on an empty tape
the program does not fail with an explicit error; stepping panics with an
out-of-bounds tape access (`none`) exactly when some rule's `current`
equals the machine state, and otherwise simply halts as if the machine
had terminated normally. -/
theorem next_empty_tape (m : Machine) (program : List Turd) (he : m.tape = []) :
    (m.next program = none ↔ ∃ t ∈ program, t.current = m.state) ∧
    ((∀ t ∈ program, t.current ≠ m.state) → m.next program = some (m, false)) := by
  have hget : m.tape[m.head]? = none := by
    rw [he]
    simp
  have h := next_oob m program hget
  exact ⟨h.1, h.2.1⟩

/-- Witness for C8: with an empty tape, initial state `A` and the rule
`A 0 1 R B`, the very first step hits the out-of-bounds tape access
(`none`), with no explicit error raised beforehand. -/
theorem next_empty_tape_witness :
    Machine.next ⟨[], 0, "A"⟩ [⟨"A", "0", "1", Step.R, "B"⟩] = none :=
  (next_empty_tape ⟨[], 0, "A"⟩ [⟨"A", "0", "1", Step.R, "B"⟩] rfl).1.mpr
    ⟨⟨"A", "0", "1", Step.R, "B"⟩, List.mem_cons_self _ _, rfl⟩

end TuringSim

